import Mathlib

/-!
Formalisation of the taxonomy engine of `dnadb` (`src/dnadb/taxonomy.py`),
as a shallow embedding:

* `splitTaxonomy` models `split_taxonomy`, i.e. `re.findall(r"\w__([^;]+)", s)[:max_depth]`.
  The scan of `re.findall` is modelled by `findAll`, a left-to-right scan that at each
  position tries to match a word character, two underscores, and a non-empty maximal
  run of non-semicolon characters; on success it emits the captured run and resumes
  after it, otherwise it advances one character.  The `fuel` argument is only a
  termination measure; `splitTaxonomy` passes the length of the string, which is
  always sufficient (each step consumes at least one character).
* `joinTaxonomy` models `join_taxonomy` (the `assert depth >= 1 and depth <= 7`
  is modelled by returning `none` outside that range).
* `Taxon` models the `Taxon` class restricted to the fields the claims touch
  (`name` and the `parent` chain); a Python `Taxon` object is identified with its
  chain of ancestors, which is exactly the data `serialize`/`merge`/`add_taxons`
  consult.
* a `TaxonomyHierarchy` is its `taxon_maps` field: one insertion-ordered
  association list (modelling a Python `dict`, exact string keys) per rank.
* `addTaxonsGo`/`addTaxons`/`addTaxonomy`, `isValidTaxons`/`isValidLabel`,
  `reduceTaxons`, `serializeH`/`deserializeH` and `mergeH` are direct translations
  of `TaxonomyHierarchy.add_taxons`, `is_valid`, `reduce_taxons`,
  `serialize`/`deserialize` and `merge`.  Operations that can raise
  (`KeyError` on a missing parent during `deserialize`/`merge`, `min()` of an
  empty sequence in `merge`) return `Option`.
-/

namespace DnaDb

/-- Python `\w` over the ASCII range: letters, digits and the underscore. -/
def wordChar (c : Char) : Bool := c.isAlphanum || c = '_'

/-- `TAXON_PREFIXES = "kpcofgs"` as a list of characters. -/
def TAXON_PREFIXES : List Char := ['k', 'p', 'c', 'o', 'f', 'g', 's']

/-- The scan of `re.findall(r"\w__([^;]+)", s)`: at each position, if the text matches
a word character, `"__"`, then at least one non-`';'` character, capture the maximal
run of non-`';'` characters and resume after it; otherwise advance one character.
`fuel` is a termination measure only; any `fuel ≥` the length of the list gives the
behaviour of the unbounded scan. -/
def findAll : Nat → List Char → List String
  | 0, _ => []
  | _ + 1, [] => []
  | fuel + 1, c :: rest =>
    match rest with
    | '_' :: '_' :: d :: rest2 =>
      if wordChar c && (d != ';') then
        ((d :: rest2).takeWhile (fun ch => ch != ';')).asString
          :: findAll fuel ((d :: rest2).dropWhile (fun ch => ch != ';'))
      else
        findAll fuel rest
    | _ => findAll fuel rest

/-- `split_taxonomy(taxonomy, max_depth=7)`:
`tuple(re.findall(r"\w__([^;]+)", taxonomy))[:max_depth]`. -/
def splitTaxonomy (taxonomy : String) (maxDepth : Nat := 7) : List String :=
  (findAll taxonomy.data.length taxonomy.data).take maxDepth

/-- `"; ".join(segs)`. -/
def joinSegs : List String → String
  | [] => ""
  | [s] => s
  | s :: rest => s ++ "; " ++ joinSegs rest

/-- `join_taxonomy(taxonomy, depth=7)`.  The `assert depth >= 1 and depth <= 7`
is modelled by `none`; otherwise the input is truncated to `depth`, right-padded
with empty strings to `depth`, each position is given its one-letter rank code from
`TAXON_PREFIXES` followed by `"__"`, and the segments are joined with `"; "`. -/
def joinTaxonomy (taxonomy : List String) (depth : Nat := 7) : Option String :=
  if 1 ≤ depth ∧ depth ≤ 7 then
    let t := taxonomy.take depth
    let padded := t ++ List.replicate (depth - t.length) ""
    some (joinSegs ((padded.zip TAXON_PREFIXES).map
      (fun pr => String.singleton pr.2 ++ "__" ++ pr.1)))
  else
    none

/-- The `Taxon` class, restricted to the fields the claims are about: a taxon is its
name together with its chain of ancestors (the `parent` field, `Optional[Taxon]`).
The two constructors encode `parent is None` / `parent is not None`; `Taxon.make`
below is the Python constructor `Taxon(name, parent)`.  `depth` and `children` are
derived/auxiliary in the source and unused by the claimed operations. -/
inductive Taxon where
  | root (name : String)
  | child (name : String) (parent : Taxon)
deriving DecidableEq, Repr

/-- `Taxon(name, parent)`: the Python constructor, taking an optional parent. -/
def Taxon.make (name : String) : Option Taxon → Taxon
  | none => .root name
  | some p => .child name p

/-- The `name` field of a `Taxon`. -/
def Taxon.name : Taxon → String
  | .root n => n
  | .child n _ => n

/-- The `parent` field of a `Taxon` (`None` encoded as `none`). -/
def Taxon.parent : Taxon → Option Taxon
  | .root _ => none
  | .child _ p => some p

/-- One rank of `taxon_maps`: a Python `dict` from taxon name to `Taxon`, modelled as
an insertion-ordered association list with exact string keys. -/
abbrev TaxonMap := List (String × Taxon)

/-- The state of a `TaxonomyHierarchy`: its `taxon_maps` list, one map per rank. -/
abbrev Hier := List TaxonMap

/-- Python `dict` lookup `m[k]` (first, and only, binding of the key). -/
def alookup {α : Type} : List (String × α) → String → Option α
  | [], _ => none
  | (k, v) :: rest, key => if k = key then some v else alookup rest key

/-- Python `dict` assignment `m[k] = v`: overwrite in place if the key is present
(keeping its position), otherwise append. -/
def aset {α : Type} : List (String × α) → String → α → List (String × α)
  | [], k, v => [(k, v)]
  | (k', v') :: rest, k, v =>
    if k' = k then (k, v) :: rest else (k', v') :: aset rest k v

/-- `TaxonomyHierarchy(depth)`: `depth` fresh empty taxon maps. -/
def emptyHierarchy (depth : Nat := 7) : Hier := List.replicate depth []

/-- The loop of `add_taxons`: `zip(self.taxon_maps, taxons)` carrying the running
`parent`; a missing name is inserted as `Taxon(taxon_name, parent)`, and the parent
for the next rank is `taxon_map[taxon_name]`. -/
def addTaxonsGo : Option Taxon → Hier → List String → Hier
  | _, [], _ => []
  | _, maps, [] => maps
  | parent, m :: ms, t :: ts =>
    let m2 := if alookup m t = none then m ++ [(t, Taxon.make t parent)] else m
    m2 :: addTaxonsGo (alookup m2 t) ms ts

/-- `TaxonomyHierarchy.add_taxons(taxons)`. -/
def addTaxons (maps : Hier) (taxons : List String) : Hier :=
  addTaxonsGo none maps taxons

/-- `TaxonomyHierarchy.add_taxonomy(entry)`: `add_taxons(split_taxonomy(entry))`. -/
def addTaxonomy (maps : Hier) (label : String) : Hier :=
  addTaxons maps (splitTaxonomy label)

/-- `TaxonomyHierarchy.is_valid` on an already-split tuple: walk
`zip(self.taxon_maps, taxons)`; an empty name breaks out with `True`, a name missing
from its rank map returns `False`. -/
def isValidTaxons : Hier → List String → Bool
  | _, [] => true
  | [], _ => true
  | m :: ms, t :: ts =>
    if t = "" then true
    else if alookup m t = none then false
    else isValidTaxons ms ts

/-- `TaxonomyHierarchy.is_valid` on a label string: split first. -/
def isValidLabel (maps : Hier) (label : String) : Bool :=
  isValidTaxons maps (splitTaxonomy label)

/-- `TaxonomyHierarchy.reduce_taxons(taxons)`: a result of the same length as
`taxons`, initially all `""`; ranks are copied until the first name missing from
its rank map (or until the rank maps run out), the rest stay `""`. -/
def reduceTaxons : Hier → List String → List String
  | _, [] => []
  | [], _ :: ts => "" :: reduceTaxons [] ts
  | m :: ms, t :: ts =>
    if alookup m t = none then "" :: ts.map (fun _ => "")
    else t :: reduceTaxons ms ts

/-- The parent-name marker written by `serialize`:
`taxon.parent.name if taxon.parent else ""`. -/
def taxonParentName (t : Taxon) : String :=
  match t.parent with
  | some p => p.name
  | none => ""

/-- `TaxonomyHierarchy.serialize()`, at the level of the JSON structure it encodes:
per rank, the map `{taxon.name: parent-name-marker}` in insertion order.  (JSON
encoding/decoding of this structure is lossless and is elided.) -/
def serializeH (maps : Hier) : List (List (String × String)) :=
  maps.map (fun m => m.map (fun e => (e.2.name, taxonParentName e.2)))

/-- One rank of `TaxonomyHierarchy.deserialize`: for each `(child, parent_name)`
item in order, the parent is `taxon_maps[i-1][parent_name]` when `i > 0`
(`none` result models the `KeyError` when it is absent) and `None` at rank 0. -/
def deserializeRank (prev : Option TaxonMap) : List (String × String) → Option TaxonMap
  | [] => some []
  | (child, pname) :: rest =>
    match prev with
    | none =>
      match deserializeRank prev rest with
      | some tail => some ((child, Taxon.make child none) :: tail)
      | none => none
    | some pmap =>
      match alookup pmap pname with
      | some p =>
        match deserializeRank prev rest with
        | some tail => some ((child, Taxon.make child (some p)) :: tail)
        | none => none
      | none => none

/-- The rank loop of `TaxonomyHierarchy.deserialize`: ranks are rebuilt in order,
each taking its parents from the rank rebuilt just before it. -/
def deserializeGo (prev : Option TaxonMap) : List (List (String × String)) → Option Hier
  | [] => some []
  | r :: rs =>
    match deserializeRank prev r with
    | some m =>
      match deserializeGo (some m) rs with
      | some ms => some (m :: ms)
      | none => none
    | none => none

/-- `TaxonomyHierarchy.deserialize`, at the level of the decoded JSON structure. -/
def deserializeH (pm : List (List (String × String))) : Option Hier :=
  deserializeGo none pm

/-- Inner loop of `TaxonomyHierarchy.merge` for one rank: for each taxon of the
incoming map in order, `to_map[taxon.name] = Taxon(taxon.name, parent)` where
`parent` is `merged.taxon_maps[i-1][taxon.parent.name]` when `i > 0` and the taxon
has a parent (`none` result models the `KeyError`), else `None`. -/
def mergeRank (prev : Option TaxonMap) : TaxonMap → TaxonMap → Option TaxonMap
  | tm, [] => some tm
  | tm, (_, taxon) :: rest =>
    match prev, taxon.parent with
    | some pmap, some p =>
      match alookup pmap p.name with
      | some q => mergeRank prev (aset tm taxon.name (Taxon.make taxon.name (some q))) rest
      | none => none
    | _, _ => mergeRank prev (aset tm taxon.name (Taxon.make taxon.name none)) rest

/-- Rank loop of `TaxonomyHierarchy.merge` for one incoming hierarchy:
`for i in range(depth)`, where rank `i` takes parents from the merged rank `i-1`
as updated by this same pass.  `none` models the `IndexError` when the incoming
hierarchy is shallower than the merged depth (impossible for the minimum depth). -/
def mergeGo (prev : Option TaxonMap) : Hier → Hier → Option Hier
  | [], _ => some []
  | _ :: _, [] => none
  | tm :: accRest, fm :: fromRest =>
    match mergeRank prev tm fm with
    | some tm2 =>
      match mergeGo (some tm2) accRest fromRest with
      | some rest2 => some (tm2 :: rest2)
      | none => none
    | none => none

/-- Fold one incoming hierarchy into the merged hierarchy. -/
def mergeOne (acc fromH : Hier) : Option Hier :=
  mergeGo none acc fromH

/-- `depth = min(hierarchy.depth for hierarchy in hierarchy_list)`; `none` models
the `ValueError` of `min` on an empty sequence. -/
def mergeDepth : List Hier → Option Nat
  | [] => none
  | h :: t => some (t.foldl (fun d h2 => min d h2.length) h.length)

/-- Outer loop of `TaxonomyHierarchy.merge`: hierarchies are folded in, in order,
into a fresh hierarchy of the minimum depth. -/
def mergeFold : List Hier → Hier → Option Hier
  | [], acc => some acc
  | h :: t, acc =>
    match mergeOne acc h with
    | some acc2 => mergeFold t acc2
    | none => none

/-- `TaxonomyHierarchy.merge(hierarchies)`. -/
def mergeH (hs : List Hier) : Option Hier :=
  match mergeDepth hs with
  | none => none
  | some depth => mergeFold hs (List.replicate depth [])

/-- The `TaxonomyEntry` class: the two data fields, plus an allocation identity
(`objId`) modelling Python object identity.  The class defines no `__eq__`, so
`==` on entries is `object.__eq__`, i.e. identity. -/
structure TaxonomyEntry where
  objId : Nat
  identifier : String
  label : String
deriving DecidableEq, Repr

/-- Python `==` on `TaxonomyEntry`: with no `__eq__` defined, comparison falls back
to object identity. -/
def entryEq (a b : TaxonomyEntry) : Bool := a.objId == b.objId

/-- Lookup of a name in the rank-`i` taxon map of a hierarchy. -/
def rankLookup (maps : Hier) (i : Nat) (name : String) : Option Taxon :=
  match maps[i]? with
  | some m => alookup m name
  | none => none

/-- A hierarchy built from the empty hierarchy by a finite sequence of
`add_taxons` calls (`add_entry` and `add_taxonomy` delegate to `add_taxons`
on the split label, so they are instances of this). -/
def buildHierarchy (depth : Nat) (ops : List (List String)) : Hier :=
  ops.foldl addTaxons (emptyHierarchy depth)

/-- The (rank, taxon-name, parent-name) triples of a hierarchy, ranks numbered
from `i`. -/
def rankTriplesGo (i : Nat) : Hier → List (Nat × String × String)
  | [] => []
  | m :: ms =>
    m.map (fun e => (i, e.2.name, taxonParentName e.2)) ++ rankTriplesGo (i + 1) ms

/-- The set (as a list) of (rank, taxon-name, parent-name) triples of a hierarchy. -/
def rankTriples (maps : Hier) : List (Nat × String × String) :=
  rankTriplesGo 0 maps

/-- Modelled from the spec wording of claim C2 (the claimed behaviour, for
comparison with the implemented `is_valid`): walk rank by rank; an empty name
stops the walk with `true`; a named rank must exist in its rank map AND its
taxon's parent must be the taxon named at the previous rank of the label
(no parent requirement at rank 0). -/
def chainValidSpec (prevName : Option String) : Hier → List String → Bool
  | _, [] => true
  | [], _ => true
  | m :: ms, t :: ts =>
    if t = "" then true
    else
      match alookup m t with
      | none => false
      | some tx =>
        (match prevName with
         | none => true
         | some pn =>
           match tx.parent with
           | some p => p.name == pn
           | none => false) && chainValidSpec (some t) ms ts

/-- Concrete hierarchy: `add_taxons(("A", "X"))` on an empty depth-2 hierarchy. -/
def exampleAX : Hier := addTaxons (emptyHierarchy 2) ["A", "X"]

/-- Concrete hierarchy containing the chains A→X and B→Y. -/
def exampleChain2 : Hier := addTaxons exampleAX ["B", "Y"]

/-- Concrete hierarchy containing the chain P→X. -/
def examplePX : Hier := addTaxons (emptyHierarchy 2) ["P", "X"]

/-- Concrete hierarchy containing the chain Q→X (same rank-1 name, other parent). -/
def exampleQX : Hier := addTaxons (emptyHierarchy 2) ["Q", "X"]

/-- Concrete depth-7 hierarchy containing the chain Bacteria→Proteobacteria and
nothing else. -/
def exampleBacteria : Hier := addTaxons (emptyHierarchy 7) ["Bacteria", "Proteobacteria"]

/-- Consistency of a `parent` value relative to the taxon map of the previous rank
(`none` meaning rank 0): at rank 0 the parent is `None`; above rank 0 the parent
is a taxon recorded in the previous rank's map under its own name. -/
def parentOk : Option TaxonMap → Option Taxon → Prop
  | none, op => op = none
  | some pm, op => ∃ p, op = some p ∧ alookup pm p.name = some p

/-- One map entry is well formed: its key is its taxon's name and its taxon's
parent is consistent with the previous rank. -/
def entryOk (prev : Option TaxonMap) (e : String × Taxon) : Prop :=
  e.2.name = e.1 ∧ parentOk prev e.2.parent

/-- The structural invariant of hierarchies built by `add_taxons`: every entry of
every rank map is well formed relative to the rank map before it. -/
def invFrom : Option TaxonMap → Hier → Prop
  | _, [] => True
  | prev, m :: ms => (∀ e ∈ m, entryOk prev e) ∧ invFrom (some m) ms

/-- A name is present at rank `i` of a hierarchy (by recorded taxon name). -/
def namesAt (maps : Hier) (i : Nat) (key : String) : Prop :=
  ∃ m, maps[i]? = some m ∧ key ∈ m.map (fun e => e.2.name)

/-- The character sequence of one rendered label segment `p__name`. -/
def segChars (pn : String × Char) : List Char :=
  pn.2 :: '_' :: '_' :: pn.1.data

/-- The character sequence of rendered (name, rank-letter) segments joined by `"; "`. -/
def interChars : List (String × Char) → List Char
  | [] => []
  | [pn] => segChars pn
  | pn :: rest => segChars pn ++ ';' :: ' ' :: interChars rest

/-! ### Scanner lemmas for the split/join codec -/

theorem findAll_nil (fuel : Nat) : findAll fuel [] = [] := by
  cases fuel <;> rfl

theorem findAll_skip (c : Char) (hc : wordChar c = false) (fuel : Nat) (l : List Char) :
    findAll (fuel + 1) (c :: l) = findAll fuel l := by
  simp only [findAll]
  split
  · rename_i d rest2 heq
    simp [hc]
  · rfl

theorem findAll_underscore_one (fuel : Nat) : findAll fuel ['_'] = [] := by
  cases fuel <;> simp [findAll, findAll_nil]

theorem findAll_uu (fuel : Nat) : findAll fuel ['_', '_'] = [] := by
  cases fuel <;> simp [findAll, findAll_underscore_one]

theorem findAll_empty_seg_last (p : Char) (fuel : Nat) :
    findAll fuel [p, '_', '_'] = [] := by
  cases fuel <;> simp [findAll, findAll_uu, Bool.and_false]

theorem findAll_empty_seg_sep (p : Char) (I : List Char) (fuel : Nat) :
    findAll (fuel + 5) (p :: '_' :: '_' :: ';' :: ' ' :: I) = findAll fuel I := by
  have h5 : findAll (fuel + 5) (p :: '_' :: '_' :: ';' :: ' ' :: I)
      = findAll (fuel + 4) ('_' :: '_' :: ';' :: ' ' :: I) := by
    simp [findAll, Bool.and_false]
  have h4 : findAll (fuel + 4) ('_' :: '_' :: ';' :: ' ' :: I)
      = findAll (fuel + 3) ('_' :: ';' :: ' ' :: I) := by
    simp [findAll]
  have h3 : findAll (fuel + 3) ('_' :: ';' :: ' ' :: I)
      = findAll (fuel + 2) (';' :: ' ' :: I) := by
    simp [findAll]
  rw [h5, h4, h3, findAll_skip ';' (by decide), findAll_skip ' ' (by decide)]

theorem takeWhile_no_semi (l : List Char) (h : ';' ∉ l) :
    l.takeWhile (fun ch => ch != ';') = l ∧ l.dropWhile (fun ch => ch != ';') = [] := by
  induction l with
  | nil => simp
  | cons c rest ih =>
    have hc : c ≠ ';' := by
      intro hc; exact h (hc ▸ List.mem_cons_self c rest)
    have hrest : ';' ∉ rest := fun hm => h (List.mem_cons_of_mem c hm)
    have hcb : (c != ';') = true := by simp [hc]
    obtain ⟨ht, hd⟩ := ih hrest
    constructor
    · simp [List.takeWhile, hcb, ht]
    · simp [List.dropWhile, hcb, hd]

theorem takeWhile_until_semi (l r : List Char) (h : ';' ∉ l) :
    (l ++ ';' :: r).takeWhile (fun ch => ch != ';') = l ∧
    (l ++ ';' :: r).dropWhile (fun ch => ch != ';') = ';' :: r := by
  induction l with
  | nil => simp [List.takeWhile, List.dropWhile]
  | cons c rest ih =>
    have hc : c ≠ ';' := by
      intro hc; exact h (hc ▸ List.mem_cons_self c rest)
    have hrest : ';' ∉ rest := fun hm => h (List.mem_cons_of_mem c hm)
    have hcb : (c != ';') = true := by simp [hc]
    obtain ⟨ht, hd⟩ := ih hrest
    constructor
    · simp [List.takeWhile, hcb, ht]
    · simp [List.dropWhile, hcb, hd]

theorem data_ne_nil_of_ne_empty (n : String) (h : n ≠ "") : n.data ≠ [] := by
  intro hd
  apply h
  cases n
  simp_all

theorem findAll_capture_last (p : Char) (n : String) (fuel : Nat)
    (hp : wordChar p = true) (hn : n ≠ "") (hsemi : ';' ∉ n.data) :
    findAll (fuel + 1) (p :: '_' :: '_' :: n.data) = [n] := by
  obtain ⟨d, ds, hds⟩ : ∃ d ds, n.data = d :: ds := by
    cases hnd : n.data with
    | nil => exact absurd hnd (data_ne_nil_of_ne_empty n hn)
    | cons d ds => exact ⟨d, ds, rfl⟩
  have hd : d ≠ ';' := by
    intro hd; apply hsemi; rw [hds, hd]; exact List.mem_cons_self ';' ds
  obtain ⟨ht, hdr⟩ := takeWhile_no_semi (d :: ds) (hds ▸ hsemi)
  rw [hds]
  have hasn : (d :: ds).asString = n := by
    rw [← hds]; cases n; rfl
  simp [findAll, hp, hd, ht, hdr, hasn, findAll_nil]

theorem findAll_capture_sep (p : Char) (n : String) (I : List Char) (fuel : Nat)
    (hp : wordChar p = true) (hn : n ≠ "") (hsemi : ';' ∉ n.data) :
    findAll (fuel + 1) (p :: '_' :: '_' :: (n.data ++ ';' :: ' ' :: I))
      = n :: findAll fuel (';' :: ' ' :: I) := by
  obtain ⟨d, ds, hds⟩ : ∃ d ds, n.data = d :: ds := by
    cases hnd : n.data with
    | nil => exact absurd hnd (data_ne_nil_of_ne_empty n hn)
    | cons d ds => exact ⟨d, ds, rfl⟩
  have hd : d ≠ ';' := by
    intro hd; apply hsemi; rw [hds, hd]; exact List.mem_cons_self ';' ds
  obtain ⟨ht, hdr⟩ := takeWhile_until_semi (d :: ds) (' ' :: I) (hds ▸ hsemi)
  rw [hds]
  have hasn : (d :: ds).asString = n := by
    rw [← hds]; cases n; rfl
  have ht' : List.takeWhile (fun ch => ch != ';') (d :: (ds ++ ';' :: ' ' :: I)) = d :: ds := by
    rw [← List.cons_append]; exact ht
  have hdr' : List.dropWhile (fun ch => ch != ';') (d :: (ds ++ ';' :: ' ' :: I))
      = ';' :: ' ' :: I := by
    rw [← List.cons_append]; exact hdr
  simp [findAll, hp, hd, ht', hdr', hasn]

theorem findAll_interChars :
    ∀ (pairs : List (String × Char)) (fuel : Nat),
      (∀ pr ∈ pairs, wordChar pr.2 = true ∧ ';' ∉ pr.1.data) →
      (interChars pairs).length ≤ fuel →
      findAll fuel (interChars pairs)
        = (pairs.filter (fun pr => pr.1 != "")).map (fun pr => pr.1) := by
  intro pairs
  induction pairs with
  | nil =>
    intro fuel _ _
    simp [interChars, findAll_nil]
  | cons pn rest ih =>
    obtain ⟨n, p⟩ := pn
    intro fuel hok hfuel
    have hp : wordChar p = true := (hok (n, p) (List.mem_cons_self _ _)).1
    have hsemi : ';' ∉ n.data := (hok (n, p) (List.mem_cons_self _ _)).2
    have hokRest : ∀ pr ∈ rest, wordChar pr.2 = true ∧ ';' ∉ pr.1.data :=
      fun pr hm => hok pr (List.mem_cons_of_mem _ hm)
    cases rest with
    | nil =>
      by_cases hn : n = ""
      · subst hn
        have hIC : interChars [(("" : String), p)] = [p, '_', '_'] := by
          simp [interChars, segChars]
        rw [hIC, findAll_empty_seg_last]
        simp
      · have hIC : interChars [(n, p)] = p :: '_' :: '_' :: n.data := by
          simp [interChars, segChars]
        rw [hIC] at hfuel ⊢
        obtain ⟨f, rfl⟩ : ∃ f, fuel = f + 1 := by
          cases fuel with
          | zero => simp at hfuel
          | succ f => exact ⟨f, rfl⟩
        rw [findAll_capture_last p n f hp hn hsemi]
        simp [hn]
    | cons pn2 rest2 =>
      have hIC : interChars ((n, p) :: pn2 :: rest2)
          = p :: '_' :: '_' :: (n.data ++ ';' :: ' ' :: interChars (pn2 :: rest2)) := by
        simp [interChars, segChars]
      by_cases hn : n = ""
      · subst hn
        rw [hIC] at hfuel ⊢
        simp only [show ("" : String).data = [] from rfl, List.nil_append] at hfuel ⊢
        have hlen : 5 + (interChars (pn2 :: rest2)).length ≤ fuel := by
          simp only [List.length_cons] at hfuel
          omega
        obtain ⟨f, rfl⟩ : ∃ f, fuel = f + 5 := ⟨fuel - 5, by omega⟩
        rw [findAll_empty_seg_sep]
        rw [ih f hokRest (by omega)]
        simp
      · rw [hIC] at hfuel ⊢
        have hnlen : 1 ≤ n.data.length :=
          List.length_pos.mpr (data_ne_nil_of_ne_empty n hn)
        have hlen : 5 + n.data.length + (interChars (pn2 :: rest2)).length ≤ fuel := by
          simp only [List.length_cons, List.length_append] at hfuel
          omega
        obtain ⟨f, rfl⟩ : ∃ f, fuel = f + 1 := ⟨fuel - 1, by omega⟩
        rw [findAll_capture_sep p n _ f hp hn hsemi]
        obtain ⟨f2, rfl⟩ : ∃ f2, f = f2 + 2 := ⟨f - 2, by omega⟩
        rw [show f2 + 2 = (f2 + 1) + 1 from rfl, findAll_skip ';' (by decide),
          findAll_skip ' ' (by decide)]
        rw [ih f2 hokRest (by omega)]
        simp [hn]

theorem joinSegs_data :
    ∀ pairs : List (String × Char),
      (joinSegs (pairs.map (fun pr => String.singleton pr.2 ++ "__" ++ pr.1))).data
        = interChars pairs := by
  intro pairs
  induction pairs with
  | nil => rfl
  | cons pn rest ih =>
    obtain ⟨n, p⟩ := pn
    cases rest with
    | nil =>
      simp [joinSegs, interChars, segChars, String.data_append]
    | cons pn2 rest2 =>
      have hstep : joinSegs ((((n, p) :: pn2 :: rest2).map
            (fun pr => String.singleton pr.2 ++ "__" ++ pr.1)))
          = (String.singleton p ++ "__" ++ n) ++ "; "
            ++ joinSegs ((pn2 :: rest2).map (fun pr => String.singleton pr.2 ++ "__" ++ pr.1)) := by
        simp [joinSegs]
      rw [hstep]
      simp only [String.data_append]
      rw [ih]
      have h1 : (String.singleton p).data = [p] := rfl
      have h2 : ("__" : String).data = ['_', '_'] := rfl
      have h3 : ("; " : String).data = [';', ' '] := rfl
      simp [h1, h2, h3, interChars, segChars]

theorem filter_replicate_empty_string (k : Nat) :
    (List.replicate k "").filter (fun s => s != "") = [] := by
  induction k with
  | zero => rfl
  | succ k ih => simp [List.replicate, ih]

theorem zip_filter_names :
    ∀ (l1 : List String) (l2 : List Char), l1.length ≤ l2.length →
      ((l1.zip l2).filter (fun pr => pr.1 != "")).map (fun pr => pr.1)
        = l1.filter (fun s => s != "") := by
  intro l1
  induction l1 with
  | nil => intro l2 _; simp
  | cons a l1' ih =>
    intro l2 hlen
    cases l2 with
    | nil => simp at hlen
    | cons b l2' =>
      simp only [List.length_cons, Nat.succ_le_succ_iff] at hlen
      rw [List.zip_cons_cons]
      by_cases ha : a = ""
      · subst ha
        simp [List.filter_cons, ih l2' hlen]
      · have hab : (a != "") = true := by simp [ha]
        simp [List.filter_cons, hab, ih l2' hlen]

/-- For a valid depth, `join_taxonomy` succeeds and its result's character data is
the rendering of the padded names zipped with the rank letters. -/
theorem joinTaxonomy_data (x : List String) (d : Nat) (hd : 1 ≤ d ∧ d ≤ 7) :
    joinTaxonomy x d
      = some (joinSegs (((x.take d ++ List.replicate (d - (x.take d).length) "").zip
          TAXON_PREFIXES).map (fun pr => String.singleton pr.2 ++ "__" ++ pr.1))) := by
  simp [joinTaxonomy, hd]

/-- Behaviour of `split_taxonomy` on any output of `join_taxonomy` at a valid
depth, when the names are free of `';'`: the scan returns exactly the nonempty
names in order — every empty rank, trailing or interior, is dropped. -/
theorem splitTaxonomy_join (x : List String) (d : Nat) (h1 : 1 ≤ d) (h7 : d ≤ 7)
    (hx : ∀ n ∈ x, ';' ∉ n.data) (L : String) (hL : joinTaxonomy x d = some L) :
    splitTaxonomy L d = (x.take d).filter (fun s => s != "") := by
  rw [joinTaxonomy_data x d ⟨h1, h7⟩] at hL
  obtain rfl := (Option.some.inj hL).symm
  have hdata := joinSegs_data ((x.take d ++ List.replicate (d - (x.take d).length) "").zip
    TAXON_PREFIXES)
  have hok : ∀ pr ∈ (x.take d ++ List.replicate (d - (x.take d).length) "").zip
      TAXON_PREFIXES, wordChar pr.2 = true ∧ ';' ∉ pr.1.data := by
    intro pr hm
    obtain ⟨h1m, h2m⟩ := List.of_mem_zip hm
    constructor
    · have hall : ∀ c ∈ TAXON_PREFIXES, wordChar c = true := by decide
      exact hall pr.2 h2m
    · rcases List.mem_append.mp h1m with hmem | hmem
      · exact hx pr.1 (List.mem_of_mem_take hmem)
      · have he : pr.1 = "" := List.eq_of_mem_replicate hmem
        rw [he]
        simp
  unfold splitTaxonomy
  rw [hdata]
  rw [findAll_interChars _ _ hok (le_refl _)]
  rw [zip_filter_names _ TAXON_PREFIXES ?hlen]
  case hlen =>
    have : (x.take d).length ≤ d := by
      simp [List.length_take]
    have h7' : TAXON_PREFIXES.length = 7 := rfl
    simp [List.length_append, List.length_take, List.length_replicate, h7']
    omega
  rw [List.filter_append, filter_replicate_empty_string, List.append_nil]
  apply List.take_of_length_le
  refine le_trans (List.length_filter_le _ _) ?_
  simp [List.length_take]

/-! ### Association-list and hierarchy lemmas -/

theorem alookup_append_one {α : Type} (m : List (String × α)) (k key : String) (v : α) :
    alookup (m ++ [(k, v)]) key =
      match alookup m key with
      | some w => some w
      | none => if k = key then some v else none := by
  induction m with
  | nil => simp [alookup]
  | cons e rest ih =>
    obtain ⟨k1, v1⟩ := e
    by_cases h : k1 = key <;> simp [alookup, h, ih]

theorem alookup_addStep (m : TaxonMap) (t : String) (parent : Option Taxon) :
    ∃ w, alookup (if alookup m t = none then m ++ [(t, Taxon.make t parent)] else m) t
      = some w := by
  by_cases h : alookup m t = none
  · exact ⟨Taxon.make t parent, by simp [h, alookup_append_one]⟩
  · obtain ⟨w, hw⟩ := Option.ne_none_iff_exists'.mp h
    exact ⟨w, by simp [h, hw]⟩

theorem addTaxonsGo_idem :
    ∀ (ms : Hier) (ts : List String) (parent : Option Taxon),
      addTaxonsGo parent (addTaxonsGo parent ms ts) ts = addTaxonsGo parent ms ts := by
  intro ms
  induction ms with
  | nil => intro ts parent; cases ts <;> rfl
  | cons m msTail ih =>
    intro ts parent
    cases ts with
    | nil => rfl
    | cons t tsTail =>
      obtain ⟨w, hw⟩ := alookup_addStep m t parent
      simp only [addTaxonsGo]
      simp [hw, ih tsTail (some w)]

theorem isValidTaxons_cons_empty (m : TaxonMap) (ms : Hier) (ts' : List String) :
    isValidTaxons (m :: ms) ("" :: ts') = true := by
  simp [isValidTaxons]

theorem isValidTaxons_cons (m : TaxonMap) (ms : Hier) (t : String) (ts' : List String)
    (ht : t ≠ "") :
    isValidTaxons (m :: ms) (t :: ts')
      = if alookup m t = none then false else isValidTaxons ms ts' := by
  simp [isValidTaxons, ht]

theorem rankLookup_nil (i : Nat) (name : String) :
    rankLookup ([] : Hier) i name = none := by
  simp [rankLookup]

theorem rankLookup_cons_zero (m : TaxonMap) (ms : Hier) (name : String) :
    rankLookup (m :: ms) 0 name = alookup m name := by
  simp [rankLookup]

theorem rankLookup_cons_succ (m : TaxonMap) (ms : Hier) (j : Nat) (name : String) :
    rankLookup (m :: ms) (j + 1) name = rankLookup ms j name := by
  simp [rankLookup]

theorem rankLookup_addTaxonsGo :
    ∀ (ms : Hier) (ts : List String) (parent : Option Taxon) (i : Nat)
      (name : String) (t : Taxon),
      rankLookup ms i name = some t →
      rankLookup (addTaxonsGo parent ms ts) i name = some t := by
  intro ms
  induction ms with
  | nil =>
    intro ts parent i name t h
    rw [rankLookup_nil] at h
    exact absurd h (by simp)
  | cons m msTail ih =>
    intro ts parent i name t h
    cases ts with
    | nil => exact h
    | cons t1 tsTail =>
      simp only [addTaxonsGo]
      cases i with
      | zero =>
        rw [rankLookup_cons_zero] at h ⊢
        by_cases hm : alookup m t1 = none
        · simp [hm, alookup_append_one, h]
        · simpa [hm] using h
      | succ j =>
        rw [rankLookup_cons_succ] at h ⊢
        exact ih tsTail _ j name t h

/-! ### Structural invariant of built hierarchies, and the serialize round trip -/

theorem Taxon.name_make (n : String) (op : Option Taxon) : (Taxon.make n op).name = n := by
  cases op <;> rfl

theorem Taxon.parent_make (n : String) (op : Option Taxon) : (Taxon.make n op).parent = op := by
  cases op <;> rfl

theorem Taxon.eq_make (t : Taxon) : Taxon.make t.name t.parent = t := by
  cases t <;> rfl

theorem alookup_mem {α : Type} (m : List (String × α)) (k : String) (v : α)
    (h : alookup m k = some v) : (k, v) ∈ m := by
  induction m with
  | nil => simp [alookup] at h
  | cons e rest ih =>
    obtain ⟨k1, v1⟩ := e
    by_cases hk : k1 = k
    · subst hk
      have hv : v1 = v := by simpa [alookup] using h
      subst hv
      exact List.mem_cons_self _ _
    · simp only [alookup, if_neg hk] at h
      exact List.mem_cons_of_mem _ (ih h)

theorem parentOk_mono (pm pm' : TaxonMap)
    (hpres : ∀ (k : String) (v : Taxon), alookup pm k = some v → alookup pm' k = some v)
    (op : Option Taxon) (h : parentOk (some pm) op) : parentOk (some pm') op := by
  obtain ⟨p, hop, hl⟩ := h
  exact ⟨p, hop, hpres _ _ hl⟩

theorem invFrom_mono (pm pm' : TaxonMap) (ms : Hier)
    (hpres : ∀ (k : String) (v : Taxon), alookup pm k = some v → alookup pm' k = some v)
    (h : invFrom (some pm) ms) : invFrom (some pm') ms := by
  cases ms with
  | nil => trivial
  | cons m ms' =>
    obtain ⟨hhead, htail⟩ := h
    exact ⟨fun e he => ⟨(hhead e he).1, parentOk_mono pm pm' hpres _ (hhead e he).2⟩, htail⟩

theorem invFrom_addTaxonsGo :
    ∀ (ms : Hier) (ts : List String) (prev : Option TaxonMap) (parent : Option Taxon),
      invFrom prev ms → parentOk prev parent →
      invFrom prev (addTaxonsGo parent ms ts) := by
  intro ms
  induction ms with
  | nil => intro ts prev parent _ _; cases ts <;> trivial
  | cons m ms' ih =>
    intro ts prev parent hinv hpar
    cases ts with
    | nil => exact hinv
    | cons t ts' =>
      obtain ⟨hhead, htail⟩ := hinv
      by_cases hm : alookup m t = none
      · have hstep : addTaxonsGo parent (m :: ms') (t :: ts')
            = (m ++ [(t, Taxon.make t parent)])
              :: addTaxonsGo (alookup (m ++ [(t, Taxon.make t parent)]) t) ms' ts' := by
          simp [addTaxonsGo, hm]
        rw [hstep]
        have hnew : alookup (m ++ [(t, Taxon.make t parent)]) t = some (Taxon.make t parent) := by
          simp [alookup_append_one, hm]
        have hhead2 : ∀ e ∈ m ++ [(t, Taxon.make t parent)], entryOk prev e := by
          intro e he
          rcases List.mem_append.mp he with h1 | h1
          · exact hhead e h1
          · simp only [List.mem_singleton] at h1
            subst h1
            exact ⟨Taxon.name_make t parent, by rw [Taxon.parent_make]; exact hpar⟩
        refine ⟨hhead2, ?_⟩
        refine ih ts' (some (m ++ [(t, Taxon.make t parent)]))
          (alookup (m ++ [(t, Taxon.make t parent)]) t) ?_ ?_
        · exact invFrom_mono m _ ms'
            (fun k v hv => by simp [alookup_append_one, hv]) htail
        · rw [hnew]
          exact ⟨Taxon.make t parent, rfl, by rw [Taxon.name_make]; exact hnew⟩
      · have hstep : addTaxonsGo parent (m :: ms') (t :: ts')
            = m :: addTaxonsGo (alookup m t) ms' ts' := by
          simp [addTaxonsGo, hm]
        rw [hstep]
        obtain ⟨w, hw⟩ := Option.ne_none_iff_exists'.mp hm
        refine ⟨hhead, ?_⟩
        refine ih ts' (some m) (alookup m t) htail ?_
        have hwname : w.name = t := (hhead (t, w) (alookup_mem m t w hw)).1
        rw [hw]
        exact ⟨w, rfl, by rw [hwname]; exact hw⟩

theorem invFrom_replicate (d : Nat) (prev : Option TaxonMap) :
    invFrom prev (List.replicate d []) := by
  induction d generalizing prev with
  | zero => trivial
  | succ d ih =>
    rw [List.replicate_succ]
    exact ⟨fun e he => absurd he (List.not_mem_nil e), ih (some [])⟩

theorem invFrom_build (d : Nat) (ops : List (List String)) :
    invFrom none (buildHierarchy d ops) := by
  have hfold : ∀ (ops' : List (List String)) (maps : Hier), invFrom none maps →
      invFrom none (ops'.foldl addTaxons maps) := by
    intro ops'
    induction ops' with
    | nil => intro maps h; exact h
    | cons op rest ih =>
      intro maps h
      exact ih (addTaxons maps op) (invFrom_addTaxonsGo maps op none none h rfl)
  exact hfold ops (emptyHierarchy d) (invFrom_replicate d none)

theorem deserializeRank_serialize (prev : Option TaxonMap) :
    ∀ (m : TaxonMap), (∀ e ∈ m, entryOk prev e) →
      deserializeRank prev (m.map (fun e => (e.2.name, taxonParentName e.2))) = some m := by
  intro m
  induction m with
  | nil => intro _; cases prev <;> rfl
  | cons e rest ih =>
    intro hok
    obtain ⟨k, t⟩ := e
    have hk : t.name = k := (hok (k, t) (List.mem_cons_self _ _)).1
    have hpar := (hok (k, t) (List.mem_cons_self _ _)).2
    have hrest := ih (fun e1 he1 => hok e1 (List.mem_cons_of_mem _ he1))
    simp only [List.map_cons]
    cases prev with
    | none =>
      have hpn : t.parent = none := hpar
      have ht : Taxon.make k none = t := by
        rw [← hk, ← hpn]
        exact Taxon.eq_make t
      simp [deserializeRank, hrest, hk, ht]
    | some pm =>
      obtain ⟨p, hop, hl⟩ := hpar
      have hpname : taxonParentName t = p.name := by
        simp [taxonParentName, hop]
      have ht : Taxon.make k (some p) = t := by
        rw [← hk, ← hop]
        exact Taxon.eq_make t
      simp [deserializeRank, hpname, hl, hrest, hk, ht]

theorem deserializeGo_serialize :
    ∀ (maps : Hier) (prev : Option TaxonMap), invFrom prev maps →
      deserializeGo prev
          (maps.map (fun m => m.map (fun e => (e.2.name, taxonParentName e.2))))
        = some maps := by
  intro maps
  induction maps with
  | nil => intro prev _; rfl
  | cons m ms ih =>
    intro prev hinv
    obtain ⟨hhead, htail⟩ := hinv
    simp [deserializeGo, deserializeRank_serialize prev m hhead, ih (some m) htail]

/-! ### Merge lemmas: the taxon names per rank after a merge -/

theorem alookup_aset {α : Type} (m : List (String × α)) (k key : String) (v : α) :
    alookup (aset m k v) key = if k = key then some v else alookup m key := by
  induction m with
  | nil => rfl
  | cons e rest ih =>
    obtain ⟨k1, v1⟩ := e
    by_cases h1 : k1 = k
    · subst h1
      simp only [aset, if_pos rfl]
      by_cases h2 : k1 = key <;> simp [alookup, h2]
    · simp only [aset, if_neg h1]
      by_cases h2 : k1 = key
      · subst h2
        have hk : ¬k = k1 := fun hh => h1 hh.symm
        simp [alookup, hk]
      · simp [alookup, h2, ih]

theorem mergeRank_names :
    ∀ (fm tm : TaxonMap) (prev : Option TaxonMap) (tm' : TaxonMap),
      mergeRank prev tm fm = some tm' →
      ∀ key : String, (alookup tm' key).isSome = true ↔
        ((alookup tm key).isSome = true ∨ key ∈ fm.map (fun e => e.2.name)) := by
  intro fm
  induction fm with
  | nil =>
    intro tm prev tm' h key
    obtain rfl : tm = tm' := Option.some.inj h
    simp
  | cons e rest ih =>
    intro tm prev tm' h key
    obtain ⟨k1, taxon⟩ := e
    simp only [mergeRank] at h
    rcases prev with _ | pmap
    · have hih := ih (aset tm taxon.name (Taxon.make taxon.name none)) none tm' h key
      rw [hih, alookup_aset]
      by_cases hnk : taxon.name = key
      · simp [hnk]
      · have hkn : ¬key = taxon.name := fun hh => hnk hh.symm
        simp [hnk, List.mem_cons, hkn]
    · rcases hq : taxon.parent with _ | p
      · rw [hq] at h
        have hih := ih (aset tm taxon.name (Taxon.make taxon.name none)) (some pmap) tm' h key
        rw [hih, alookup_aset]
        by_cases hnk : taxon.name = key
        · simp [hnk]
        · have hkn : ¬key = taxon.name := fun hh => hnk hh.symm
          simp [hnk, List.mem_cons, hkn]
      · simp only [hq] at h
        cases hl : alookup pmap p.name with
        | none => rw [hl] at h; simp at h
        | some q =>
          rw [hl] at h
          have hih := ih (aset tm taxon.name (Taxon.make taxon.name (some q)))
            (some pmap) tm' h key
          rw [hih, alookup_aset]
          by_cases hnk : taxon.name = key
          · simp [hnk]
          · have hkn : ¬key = taxon.name := fun hh => hnk hh.symm
            simp [hnk, List.mem_cons, hkn]

theorem mergeGo_names :
    ∀ (acc fromH : Hier) (prev : Option TaxonMap) (M : Hier),
      mergeGo prev acc fromH = some M →
      M.length = acc.length ∧
      ∀ (i : Nat) (key : String),
        (rankLookup M i key).isSome = true ↔
          ((rankLookup acc i key).isSome = true ∨
            (i < acc.length ∧
              ∃ fmm, fromH[i]? = some fmm ∧ key ∈ fmm.map (fun e => e.2.name))) := by
  intro acc
  induction acc with
  | nil =>
    intro fromH prev M h
    obtain rfl : ([] : Hier) = M := Option.some.inj h
    refine ⟨rfl, ?_⟩
    intro i key
    simp [rankLookup_nil]
  | cons tm accRest ih =>
    intro fromH prev M h
    cases fromH with
    | nil => simp [mergeGo] at h
    | cons fm fromRest =>
      simp only [mergeGo] at h
      cases hmr : mergeRank prev tm fm with
      | none => rw [hmr] at h; simp at h
      | some tm2 =>
        simp only [hmr] at h
        cases hgo : mergeGo (some tm2) accRest fromRest with
        | none => rw [hgo] at h; simp at h
        | some rest2 =>
          rw [hgo] at h
          obtain rfl : tm2 :: rest2 = M := Option.some.inj h
          obtain ⟨hlen, hnames⟩ := ih fromRest (some tm2) rest2 hgo
          refine ⟨by simp [hlen], ?_⟩
          intro i key
          cases i with
          | zero =>
            rw [rankLookup_cons_zero, rankLookup_cons_zero,
              mergeRank_names fm tm prev tm2 hmr key]
            simp
          | succ j =>
            rw [rankLookup_cons_succ, rankLookup_cons_succ, hnames j key]
            simp [Nat.succ_lt_succ_iff]

theorem rankLookup_replicate (d i : Nat) (key : String) :
    rankLookup (List.replicate d []) i key = none := by
  induction d generalizing i with
  | zero => simp [rankLookup]
  | succ d ih =>
    rw [List.replicate_succ]
    cases i with
    | zero => rw [rankLookup_cons_zero]; rfl
    | succ j => rw [rankLookup_cons_succ]; exact ih j

/-! ### Claim theorems -/

/-- C1 (counterexample): the codec round trip fails on tuples containing empty
strings.  At depth 1 with the tuple `("",)`, `join` yields `"k__"` and `split`
of that label is the empty tuple, not `("",)` (the regex `\w__([^;]+)` requires
a nonempty name, so empty ranks produce no token). -/
theorem C1_counterexample :
    joinTaxonomy [""] 1 = some "k__" ∧ splitTaxonomy "k__" 1 ≠ [""] := by decide

/-- C1 (amended): the round-trip law holds for tuples of NONEMPTY rank names
(free of `';'`): for every depth `d ∈ [1,7]` and tuple `x` of such names with
`x.length ≤ d`, `join` succeeds with a label `L`, `split(L, d) = x`, and
`join(split(L, d), d) = L`. -/
theorem C1_roundtrip (x : List String) (d : Nat) (h1 : 1 ≤ d) (h7 : d ≤ 7)
    (hlen : x.length ≤ d) (hx : ∀ n ∈ x, n ≠ "" ∧ ';' ∉ n.data) :
    ∃ L, joinTaxonomy x d = some L ∧ splitTaxonomy L d = x ∧
      joinTaxonomy (splitTaxonomy L d) d = some L := by
  obtain ⟨L, hL⟩ : ∃ L, joinTaxonomy x d = some L := ⟨_, joinTaxonomy_data x d ⟨h1, h7⟩⟩
  have hsplit : splitTaxonomy L d = x := by
    rw [splitTaxonomy_join x d h1 h7 (fun n hn => (hx n hn).2) L hL,
      List.take_of_length_le hlen]
    apply List.filter_eq_self.mpr
    intro a ha
    simp [(hx a ha).1]
  exact ⟨L, hL, hsplit, by rw [hsplit]; exact hL⟩

/-- Witness for C1 (amended), at a concrete nonempty tuple and depth 7. -/
theorem C1_roundtrip_witness :
    ∃ L, joinTaxonomy ["Bacteria", "Proteobacteria"] 7 = some L ∧
      splitTaxonomy L 7 = ["Bacteria", "Proteobacteria"] ∧
      joinTaxonomy (splitTaxonomy L 7) 7 = some L :=
  C1_roundtrip ["Bacteria", "Proteobacteria"] 7 (by decide) (by decide) (by decide) (by decide)

/-- C3 (counterexample): `split_taxonomy` does NOT preserve interior empty ranks.
On `"k__Bacteria;p__;c__Gamma"` it returns `("Bacteria", "Gamma")`: the empty
rank produces no token at index 1 and `"Gamma"` shifts from rank index 2 to
index 1, contradicting the claimed position preservation. -/
theorem C3_counterexample :
    splitTaxonomy "k__Bacteria;p__;c__Gamma" 7 = ["Bacteria", "Gamma"] ∧
    ¬((splitTaxonomy "k__Bacteria;p__;c__Gamma" 7)[1]? = some ""
        ∧ (splitTaxonomy "k__Bacteria;p__;c__Gamma" 7)[2]? = some "Gamma") := by decide

/-- C3 (amended): `split_taxonomy` drops EVERY empty-rank token — trailing and
interior alike — so later names shift to earlier indices; on a label produced by
`join_taxonomy` at a valid depth from `';'`-free names, the result is exactly
the subsequence of nonempty names in order. -/
theorem C3_split_drops_empty_ranks (x : List String) (d : Nat) (h1 : 1 ≤ d) (h7 : d ≤ 7)
    (hx : ∀ n ∈ x, ';' ∉ n.data) (L : String) (hL : joinTaxonomy x d = some L) :
    splitTaxonomy L d = (x.take d).filter (fun s => s != "") :=
  splitTaxonomy_join x d h1 h7 hx L hL

/-- Witness for C3 (amended): the label joined from ("Bacteria", "", "Gamma")
splits to ("Bacteria", "Gamma"). -/
theorem C3_split_drops_empty_ranks_witness :
    splitTaxonomy "k__Bacteria; p__; c__Gamma; o__; f__; g__; s__" 7
      = ["Bacteria", "Gamma"] := by
  have h := C3_split_drops_empty_ranks ["Bacteria", "", "Gamma"] 7 (by decide) (by decide)
    (by decide) "k__Bacteria; p__; c__Gamma; o__; f__; g__; s__" (by decide)
  rw [h]
  decide

/-- C4: serialize/deserialize round trip.  For every hierarchy built by any
finite sequence of `add_taxons` operations (to which `add_entry`/`add_taxonomy`
delegate) on an empty hierarchy of any depth, deserializing the serialized
per-rank (taxon-name → parent-name) structure reconstructs the hierarchy
exactly — in particular with the same depth, the same taxon names at every
rank, and for every taxon the same parent name (rank-0 taxa keeping the
empty/absent parent marker). -/
theorem C4_serialize_roundtrip (d : Nat) (ops : List (List String)) :
    deserializeH (serializeH (buildHierarchy d ops)) = some (buildHierarchy d ops) :=
  deserializeGo_serialize (buildHierarchy d ops) none (invFrom_build d ops)

/-- C5: insertion is idempotent.  For every hierarchy state and label,
`add_taxonomy(L)` twice in a row yields exactly the state after a single call
(hence the same names in every rank map, the same parent links and the same
taxon count, and no new `Taxon` values); likewise for `add_taxons` on any
taxon tuple (to which `add_entry`/`add_taxonomy` delegate). -/
theorem C5_add_idempotent (maps : Hier) (L : String) (ts : List String) :
    addTaxonomy (addTaxonomy maps L) L = addTaxonomy maps L ∧
    addTaxons (addTaxons maps ts) ts = addTaxons maps ts :=
  ⟨addTaxonsGo_idem maps (splitTaxonomy L) none, addTaxonsGo_idem maps ts none⟩

/-- C10: rank maps are append-only.  Once a name maps to a taxon (with its parent
chain) in the rank-`i` map, any further sequence of `add_taxons` operations
(to which `add_entry`/`add_taxonomy` delegate) leaves that binding unchanged —
even when a later added path pairs that rank-`i` name with a different parent. -/
theorem C10_rank_maps_append_only (maps : Hier) (ops : List (List String)) (i : Nat)
    (name : String) (t : Taxon) (h : rankLookup maps i name = some t) :
    rankLookup (ops.foldl addTaxons maps) i name = some t := by
  induction ops generalizing maps with
  | nil => exact h
  | cons op rest ih =>
    exact ih (addTaxons maps op) (rankLookup_addTaxonsGo maps op none i name t h)

/-- Witness for C10: after adding the path A→X, re-adding X under the different
parent B leaves the rank-1 binding of "X" (parent A) unchanged. -/
theorem C10_rank_maps_append_only_witness :
    rankLookup (List.foldl addTaxons exampleAX [["B", "X"]]) 1 "X"
      = some (Taxon.child "X" (Taxon.root "A")) :=
  C10_rank_maps_append_only exampleAX [["B", "X"]] 1 "X"
    (Taxon.child "X" (Taxon.root "A")) (by decide)

/-- C2 (counterexample): `is_valid` does not check the parent chain.  In the
hierarchy containing the chains A→X and B→Y, the label ("A", "Y") is accepted by
`is_valid` although Y's taxon has parent B, not the previously named A — the
spec-claimed parent-chain predicate rejects it. -/
theorem C2_counterexample :
    isValidTaxons exampleChain2 ["A", "Y"] = true ∧
    chainValidSpec none exampleChain2 ["A", "Y"] = false := by decide

/-- C2 (amended): `is_valid` returns `true` iff every rank name of the queried
tuple that lies before the first empty name (and within the hierarchy's depth)
is a key of its rank's name map; parent links are not consulted, and the walk
stops with `true` at the first empty name. -/
theorem C2_is_valid_names_only (maps : Hier) (ts : List String) :
    isValidTaxons maps ts = true ↔
      ∀ (i : Nat) (m : TaxonMap) (t : String), maps[i]? = some m → ts[i]? = some t →
        (∀ (j : Nat) (t1 : String), j ≤ i → ts[j]? = some t1 → t1 ≠ "") →
        (alookup m t).isSome = true := by
  induction maps generalizing ts with
  | nil =>
    cases ts <;> simp [isValidTaxons]
  | cons m ms ih =>
    cases ts with
    | nil => simp [isValidTaxons]
    | cons t ts' =>
      by_cases ht : t = ""
      · subst ht
        rw [isValidTaxons_cons_empty]
        constructor
        · intro _ i m' t' _ _ hemp
          exact absurd rfl (hemp 0 "" (Nat.zero_le i) (by simp))
        · intro _; rfl
      · by_cases hm : alookup m t = none
        · rw [isValidTaxons_cons m ms t ts' ht, if_pos hm]
          refine iff_of_false (by simp) ?_
          intro hR
          have hemp : ∀ (j : Nat) (t1 : String), j ≤ 0 → (t :: ts')[j]? = some t1 → t1 ≠ "" := by
            intro j t1 hj hjt
            obtain rfl : j = 0 := Nat.le_zero.mp hj
            simp only [List.getElem?_cons_zero, Option.some.injEq] at hjt
            subst hjt
            exact ht
          have h0 := hR 0 m t (by simp) (by simp) hemp
          rw [hm] at h0
          simp at h0
        · rw [isValidTaxons_cons m ms t ts' ht, if_neg hm, ih ts']
          constructor
          · intro hR i m' t' hm' ht' hemp
            cases i with
            | zero =>
              simp only [List.getElem?_cons_zero, Option.some.injEq] at hm' ht'
              subst hm'; subst ht'
              exact Option.isSome_iff_ne_none.mpr hm
            | succ i' =>
              refine hR i' m' t' (by simpa using hm') (by simpa using ht') ?_
              intro j t1 hj hjt
              exact hemp (j + 1) t1 (Nat.succ_le_succ hj) (by simpa using hjt)
          · intro hR i m' t' hm' ht' hemp
            refine hR (i + 1) m' t' (by simpa using hm') (by simpa using ht') ?_
            intro j t1 hj hjt
            cases j with
            | zero =>
              simp only [List.getElem?_cons_zero, Option.some.injEq] at hjt
              subst hjt
              exact ht
            | succ j' =>
              exact hemp j' t1 (Nat.succ_le_succ_iff.mp hj) (by simpa using hjt)

/-- Witness for C2 (amended), at a concrete hierarchy and tuple, instantiated at
rank 0. -/
theorem C2_is_valid_names_only_witness :
    (alookup [("A", Taxon.root "A"), ("B", Taxon.root "B")] "A").isSome = true :=
  (C2_is_valid_names_only exampleChain2 ["A", "Y"]).mp (by decide) 0
    [("A", Taxon.root "A"), ("B", Taxon.root "B")] "A" (by decide) (by decide)
    (fun j t1 hj hjt => by
      obtain rfl : j = 0 := Nat.le_zero.mp hj
      simp only [List.getElem?_cons_zero, Option.some.injEq] at hjt
      subst hjt
      decide)

/-- C9: `TaxonomyEntry` defines no `__eq__`, so `==` falls back to object
identity: two separately constructed entries with identical
`sequence_identifier` and `label` fields are NOT equal, contradicting the
claimed value equality.  Evaluation at the failing input. -/
theorem C9_entry_eq_is_identity :
    entryEq (TaxonomyEntry.mk 0 "AY855839.1.1390" "k__Bacteria")
        (TaxonomyEntry.mk 1 "AY855839.1.1390" "k__Bacteria") = false ∧
    entryEq (TaxonomyEntry.mk 0 "AY855839.1.1390" "k__Bacteria")
        (TaxonomyEntry.mk 0 "AY855839.1.1390" "k__Bacteria") = true := by decide

/-- C8: `join_taxonomy` fails exactly when the requested depth is outside
`[1, 7]`; inside the range it succeeds on every input tuple and produces a label
joined from exactly `depth` rank segments. -/
theorem C8_join_depth_guard (x : List String) (d : Nat) :
    (1 ≤ d ∧ d ≤ 7 →
      ∃ segs : List String, segs.length = d ∧ joinTaxonomy x d = some (joinSegs segs)) ∧
    (¬(1 ≤ d ∧ d ≤ 7) → joinTaxonomy x d = none) := by
  constructor
  · intro hd
    refine ⟨((x.take d ++ List.replicate (d - (x.take d).length) "").zip TAXON_PREFIXES).map
      (fun pr => String.singleton pr.2 ++ "__" ++ pr.1), ?_, ?_⟩
    · have hlen : (x.take d).length ≤ d := by
        simp [List.length_take]
      have : TAXON_PREFIXES.length = 7 := rfl
      simp [List.length_zip, List.length_take, this]
      omega
    · simp [joinTaxonomy, hd]
  · intro hd
    simp [joinTaxonomy, hd]

/-- Witness for C8: success with exactly 3 segments at depth 3, failure at depth 9. -/
theorem C8_join_depth_guard_witness :
    (∃ segs : List String, segs.length = 3 ∧ joinTaxonomy ["A"] 3 = some (joinSegs segs)) ∧
    joinTaxonomy ["A"] 9 = none :=
  ⟨(C8_join_depth_guard ["A"] 3).1 (by decide), (C8_join_depth_guard ["A"] 9).2 (by decide)⟩

/-- C7 (counterexample): the reduced label is joined with the `"; "` separator
(`"; ".join` in `join_taxonomy`), so the claimed output
`"k__Bacteria;p__Proteobacteria;c__;o__;f__;g__;s__"` (bare `";"`) is not
produced, although the hierarchy satisfies all the claim's conditions. -/
theorem C7_counterexample :
    (rankLookup exampleBacteria 0 "Bacteria").isSome = true ∧
    rankLookup exampleBacteria 1 "Proteobacteria"
      = some (Taxon.child "Proteobacteria" (Taxon.root "Bacteria")) ∧
    rankLookup exampleBacteria 2 "XYZ" = none ∧
    joinTaxonomy (reduceTaxons exampleBacteria
        (splitTaxonomy "k__Bacteria;p__Proteobacteria;c__XYZ;o__;f__;g__;s__" 7)) 7
      ≠ some "k__Bacteria;p__Proteobacteria;c__;o__;f__;g__;s__" := by decide

/-- C7 (amended): label reduction, computed as `join(reduce_taxons(split(label)))`:
for every hierarchy containing Bacteria at rank 0 and Proteobacteria at rank 1
with parent Bacteria, and no class XYZ at rank 2, reducing
`"k__Bacteria;p__Proteobacteria;c__XYZ;o__;f__;g__;s__"` yields
`"k__Bacteria; p__Proteobacteria; c__; o__; f__; g__; s__"` (with the `"; "`
separator `join_taxonomy` uses). -/
theorem C7_reduce_label (H : Hier) (b p : Taxon)
    (hb : rankLookup H 0 "Bacteria" = some b)
    (hp : rankLookup H 1 "Proteobacteria" = some p)
    (_hchain : p.parent = some b)
    (hxyz : rankLookup H 2 "XYZ" = none) :
    joinTaxonomy (reduceTaxons H
        (splitTaxonomy "k__Bacteria;p__Proteobacteria;c__XYZ;o__;f__;g__;s__" 7)) 7
      = some "k__Bacteria; p__Proteobacteria; c__; o__; f__; g__; s__" := by
  have hsplit : splitTaxonomy "k__Bacteria;p__Proteobacteria;c__XYZ;o__;f__;g__;s__" 7
      = ["Bacteria", "Proteobacteria", "XYZ"] := by decide
  rw [hsplit]
  cases H with
  | nil =>
    rw [rankLookup_nil] at hb
    exact absurd hb (by simp)
  | cons m0 H1 =>
    cases H1 with
    | nil =>
      rw [rankLookup_cons_succ, rankLookup_nil] at hp
      exact absurd hp (by simp)
    | cons m1 H2 =>
      rw [rankLookup_cons_zero] at hb
      rw [rankLookup_cons_succ, rankLookup_cons_zero] at hp
      have hred : reduceTaxons (m0 :: m1 :: H2) ["Bacteria", "Proteobacteria", "XYZ"]
          = ["Bacteria", "Proteobacteria", ""] := by
        cases H2 with
        | nil => simp [reduceTaxons, hb, hp]
        | cons m2 H3 =>
          rw [rankLookup_cons_succ, rankLookup_cons_succ, rankLookup_cons_zero] at hxyz
          simp [reduceTaxons, hb, hp, hxyz]
      rw [hred]
      decide

/-- Witness for C7 (amended), at the concrete hierarchy Bacteria→Proteobacteria. -/
theorem C7_reduce_label_witness :
    joinTaxonomy (reduceTaxons exampleBacteria
        (splitTaxonomy "k__Bacteria;p__Proteobacteria;c__XYZ;o__;f__;g__;s__" 7)) 7
      = some "k__Bacteria; p__Proteobacteria; c__; o__; f__; g__; s__" :=
  C7_reduce_label exampleBacteria (Taxon.root "Bacteria")
    (Taxon.child "Proteobacteria" (Taxon.root "Bacteria"))
    (by decide) (by decide) (by decide) (by decide)

/-- C6 (counterexample): merge is NOT commutative on (rank, name, parent-name)
triples.  With A containing the chain P→X and B containing Q→X, `merge([A, B])`
records X with parent Q while `merge([B, A])` records X with parent P: the later
hierarchy overwrites the shared name's parent. -/
theorem C6_counterexample :
    mergeH [examplePX, exampleQX]
        = some [[("P", Taxon.root "P"), ("Q", Taxon.root "Q")],
                [("X", Taxon.child "X" (Taxon.root "Q"))]] ∧
    mergeH [exampleQX, examplePX]
        = some [[("Q", Taxon.root "Q"), ("P", Taxon.root "P")],
                [("X", Taxon.child "X" (Taxon.root "P"))]] ∧
    (1, "X", "Q") ∈ rankTriples [[("P", Taxon.root "P"), ("Q", Taxon.root "Q")],
                [("X", Taxon.child "X" (Taxon.root "Q"))]] ∧
    (1, "X", "Q") ∉ rankTriples [[("Q", Taxon.root "Q"), ("P", Taxon.root "P")],
                [("X", Taxon.child "X" (Taxon.root "P"))]] := by decide

/-- The taxon names at each rank of a two-hierarchy merge: a name is present at
rank `i` of `merge([X, Y])` exactly when `i` is below the common (minimum) depth
and the name is recorded at rank `i` of `X` or of `Y`. -/
theorem mergeH_pair_names (X Y M : Hier) (hM : mergeH [X, Y] = some M)
    (i : Nat) (key : String) :
    (rankLookup M i key).isSome = true ↔
      (i < min X.length Y.length ∧
        ((∃ m, X[i]? = some m ∧ key ∈ m.map (fun e => e.2.name)) ∨
         (∃ m, Y[i]? = some m ∧ key ∈ m.map (fun e => e.2.name)))) := by
  have hd : mergeDepth [X, Y] = some (min X.length Y.length) := by
    simp [mergeDepth]
  simp only [mergeH, hd] at hM
  simp only [mergeFold] at hM
  cases hOX : mergeOne (List.replicate (min X.length Y.length) []) X with
  | none => rw [hOX] at hM; simp at hM
  | some acc1 =>
    simp only [hOX] at hM
    cases hOY : mergeOne acc1 Y with
    | none => rw [hOY] at hM; simp at hM
    | some acc2 =>
      simp only [hOY] at hM
      obtain rfl : acc2 = M := Option.some.inj hM
      obtain ⟨hlen1, hn1⟩ :=
        mergeGo_names (List.replicate (min X.length Y.length) []) X none acc1 hOX
      obtain ⟨hlen2, hn2⟩ := mergeGo_names acc1 Y none acc2 hOY
      have hlen1' : acc1.length = min X.length Y.length := by
        rw [hlen1]
        simp
      rw [hn2 i key, hn1 i key, hlen1']
      simp only [rankLookup_replicate, List.length_replicate, Option.isSome_none,
        Bool.false_eq_true, false_or]
      constructor
      · rintro (⟨hi, hin⟩ | ⟨hi, hin⟩)
        · exact ⟨hi, Or.inl hin⟩
        · exact ⟨hi, Or.inr hin⟩
      · rintro ⟨hi, hin | hin⟩
        · exact Or.inl ⟨hi, hin⟩
        · exact Or.inr ⟨hi, hin⟩

/-- C6 (amended): merge commutes on the (rank, taxon-name) pairs: whenever both
`merge([A, B])` and `merge([B, A])` are defined, they contain exactly the same
taxon names at every rank.  (The parent links of shared names need not agree —
see the counterexample — so the claim's (rank, name, parent-name) triples may
differ.) -/
theorem C6_merge_commutes_on_names (A B M1 M2 : Hier)
    (h1 : mergeH [A, B] = some M1) (h2 : mergeH [B, A] = some M2) :
    ∀ (i : Nat) (key : String),
      (rankLookup M1 i key).isSome = true ↔ (rankLookup M2 i key).isSome = true := by
  intro i key
  rw [mergeH_pair_names A B M1 h1 i key, mergeH_pair_names B A M2 h2 i key,
    Nat.min_comm B.length A.length]
  constructor
  · rintro ⟨hi, hin | hin⟩
    · exact ⟨hi, Or.inr hin⟩
    · exact ⟨hi, Or.inl hin⟩
  · rintro ⟨hi, hin | hin⟩
    · exact ⟨hi, Or.inr hin⟩
    · exact ⟨hi, Or.inl hin⟩

/-- Witness for C6 (amended), at the concrete hierarchies P→X and Q→X, rank 1,
name "X". -/
theorem C6_merge_commutes_on_names_witness :
    (rankLookup [[("P", Taxon.root "P"), ("Q", Taxon.root "Q")],
                 [("X", Taxon.child "X" (Taxon.root "Q"))]] 1 "X").isSome = true ↔
    (rankLookup [[("Q", Taxon.root "Q"), ("P", Taxon.root "P")],
                 [("X", Taxon.child "X" (Taxon.root "P"))]] 1 "X").isSome = true :=
  C6_merge_commutes_on_names examplePX exampleQX _ _ (by decide) (by decide) 1 "X"

end DnaDb
